import Mathlib

/-!
Verification of the `humanlog` colored log handler (`humanlog.go`) against its
natural-language specification.  The Go source is shallowly embedded below:
pure helpers become Lean functions, the per-field statistics map becomes
explicit state passing, machine integers become `Nat`/`Int` with explicit
`% 2^w` where byte truncation matters, and the output buffer becomes a list of
written segments.
-/

namespace Humanlog

/-- Log severity levels of `github.com/apex/log` (debug/info/warn/error/fatal). -/
inductive Level where
  | debug
  | info
  | warn
  | error
  | fatal
deriving DecidableEq

/-- Terminal color of `github.com/fatih/color`: either a list of ANSI SGR
attribute codes (as built by `color.New`) or a 24-bit RGB color (as built by
`color.RGB`). -/
inductive Color where
  | ansi (attrs : List Nat)
  | rgb (r g b : Nat)
deriving DecidableEq

/-- Entries of `LevelColors` in `humanlog.go`: `FgBlue=34`, `FgGreen=32`,
`FgYellow=33`, `FgRed=31`, `BgRed=41`, `FgWhite=37`. -/
def LevelColors : Level → Color
  | .debug => .ansi [34]
  | .info  => .ansi [32]
  | .warn  => .ansi [33]
  | .error => .ansi [31]
  | .fatal => .ansi [41, 37]

/-- Entries of `LevelSymbol` in `humanlog.go`. -/
def LevelSymbol : Level → String
  | .debug => "D"
  | .info  => "I"
  | .warn  => "W"
  | .error => "E"
  | .fatal => "F"

/-- One bit step of the reflected CRC-32 (IEEE polynomial `0xEDB88320`),
as computed by Go's `hash/crc32`. -/
def crc32Bit (c : Nat) : Nat :=
  if c % 2 = 1 then (c >>> 1) ^^^ 0xEDB88320 else c >>> 1

/-- One byte step of CRC-32/IEEE. -/
def crc32Byte (c b : Nat) : Nat :=
  (List.range 8).foldl (fun acc _ => crc32Bit acc) (c ^^^ b)

/-- Model of Go's `crc32.ChecksumIEEE` over a byte list. -/
def ChecksumIEEE (data : List Nat) : Nat :=
  (data.foldl crc32Byte 0xFFFFFFFF) ^^^ 0xFFFFFFFF

/-- UTF-8 bytes of a string, as Go's `[]byte(key)` conversion. -/
def stringBytes (s : String) : List Nat :=
  s.toUTF8.toList.map (fun b => b.toNat)

/-- Model of `mapColor` in `humanlog.go`: `v = uint32(byte(v));
return byte(v*5/10 + 105)` — the `% 256` models the `byte` truncation of the
argument (the result `≤ 232` already fits a byte). -/
def mapColor (v : Nat) : Nat :=
  (v % 256) * 5 / 10 + 105

/-- Model of `Handler.getKeyColor` in `humanlog.go`: the field named
`"error"` uses the ERROR severity color, any other key gets an RGB color
derived from byte slices of the CRC-32 checksum of the key. -/
def getKeyColor (key : String) : Color :=
  if key = "error" then LevelColors Level.error
  else
    let sum := ChecksumIEEE (stringBytes key)
    Color.rgb (mapColor (sum >>> 24)) (mapColor (sum >>> 16)) (mapColor (sum >>> 8))

/-- Per-field statistics record `keyStat` of `humanlog.go`. -/
structure keyStat where
  MaxLength : Nat
  Count : Nat
  RightAlignable : Nat
deriving DecidableEq

/-- Zero value of `keyStat`, as produced by the Go map lookup
`kstat, _ := h.lengths[name]` for an unseen name. -/
def keyStat.zero : keyStat := ⟨0, 0, 0⟩

/-- The statistics update performed by `Handler.writeNameValue` for one
observation of a field: `MaxLength = max(MaxLength, sw)`, `Count++`, the decay
check `if sw+20 < MaxLength { MaxLength = sw }`, and the vote
`if isRight { RightAlignable++ }`. -/
def observeStat (k : keyStat) (sw : Nat) (isRightCand : Bool) : keyStat :=
  let m1 := max k.MaxLength sw
  let m2 := if sw + 20 < m1 then sw else m1
  { MaxLength := m2
    Count := k.Count + 1
    RightAlignable := if isRightCand then k.RightAlignable + 1 else k.RightAlignable }

/-- The alignment decision of `Handler.writeNameValue`:
`isRight = kstat.RightAlignable > kstat.Count/2` (Go integer division). -/
def alignDecision (k : keyStat) : Bool :=
  decide (k.Count / 2 < k.RightAlignable)

/-- Folding a sequence of observations `(displayWidth, isRightCandidate)` of a
single field name through the statistics update, starting from the zero stat. -/
def foldObs (obs : List (Nat × Bool)) : keyStat :=
  obs.foldl (fun k p => observeStat k p.1 p.2) keyStat.zero

/-- The unit table `durations` of `humanlog.go`, with durations in
nanoseconds: year=365d, month=30d, week=7d, day, hour, minute, second. -/
def durations : List (Int × String) :=
  [(365 * 24 * 60 * 60 * 1000000000, "y"),
   (30 * 24 * 60 * 60 * 1000000000, "m"),
   (7 * 24 * 60 * 60 * 1000000000, "w"),
   (24 * 60 * 60 * 1000000000, "d"),
   (60 * 60 * 1000000000, "h"),
   (60 * 1000000000, "m"),
   (1000000000, "s")]

/-- Round-half-even division, used to model decimal rounding of `%.4g`. -/
def roundHalfEven (num den : Nat) : Nat :=
  let q := num / den
  let r := num % den
  if 2 * r < den then q
  else if den < 2 * r then q + 1
  else if q % 2 = 0 then q else q + 1

/-- Model of `fmt.Sprintf` with verb `%.4g` applied to the exact rational
`num/den` (with `num, den > 0`): four significant digits, trailing zeros of the
fraction removed.  The binary `float64` rounding performed by Go before decimal
conversion is not modelled; no claim depends on this branch of `Duration`. -/
def fmt4g (num den : Nat) : String :=
  let ip := num / den
  let k := (toString ip).length
  if 4 ≤ k then toString ip
  else
    let dec := 4 - k
    let scaled := roundHalfEven (num * 10 ^ dec) den
    let ds := toString scaled
    let ipd := ds.length - dec
    let ipart := ds.toList.take ipd
    let fpart := ((ds.toList.drop ipd).reverse.dropWhile (fun c => c = '0')).reverse
    if fpart.isEmpty then String.mk ipart
    else String.mk ipart ++ "." ++ String.mk fpart

/-- The unit-decomposition loop of `Duration` in `humanlog.go`, over the
(index, unit, suffix) entries of `durations`.  `last` starts at `-1`; when a
unit matches (`d >= durations[i].d`) but `i-1 != last`, the loop breaks
("stop instead of skipping a unit"); otherwise it appends `<count><suffix>`,
keeps the remainder, and breaks once the string has at least 5 bytes. -/
def durLoop : Int → Int → List (Nat × Int × String) → String → String
  | _, _, [], s => s
  | d, last, (i, u, suf) :: rest, s =>
    if u ≤ d then
      if (i : Int) - 1 ≠ last then s
      else
        let s2 := s ++ toString (d / u) ++ suf
        if 5 ≤ s2.length then s2
        else durLoop (d % u) (i : Int) rest s2
    else durLoop d last rest s

/-- Model of `Duration` in `humanlog.go` on the nanosecond count of a
`time.Duration` (an `int64`). -/
def DurationGo (d : Int) : String :=
  if d < 1000 then toString d ++ "ns"
  else if d < 1000000 then fmt4g d.toNat 1000 ++ "µs"
  else if d < 1000000000 then fmt4g d.toNat 1000000 ++ "ms"
  else if d < 60000000000 then fmt4g d.toNat 1000000000 ++ "s"
  else durLoop d (-1) durations.enum ""

/-- Greedy digit run, the `\d+` pieces of the regular expression
`(?i)^\d+(\.\d+)? ?([a-z]{1,5})?$` (`reNumType` in `humanlog.go`). -/
def spanDigits : List Char → List Char × List Char
  | [] => ([], [])
  | c :: cs =>
    if c.isDigit then (c :: (spanDigits cs).1, (spanDigits cs).2)
    else ([], c :: cs)

/-- The character class `(?i)[a-z]` as compiled by Go's RE2 engine: `(?i)`
applies Unicode case folding to the class, so besides the ASCII letters it
also contains U+017F (LATIN SMALL LETTER LONG S, which case-folds with `s`)
and U+212A (KELVIN SIGN, which case-folds with `k`). -/
def isUnitLetter (c : Char) : Bool :=
  c.isAlpha || decide (c = Char.ofNat 0x017F) || decide (c = Char.ofNat 0x212A)

/-- The optional anchored unit suffix `([a-z]{1,5})?$` of the regular
expression, over a letter class `L` (instantiated with `isUnitLetter` for the
code's case-folded regex and with `Char.isAlpha` for the spec's ASCII
`[A-Za-z]` reading). -/
def matchUnit (L : Char → Bool) (cs : List Char) : Bool :=
  cs.all L && decide (cs.length ≤ 5)

/-- The optional single space ` ?` of the regular expression, followed by the
unit suffix. -/
def matchOptSpace (L : Char → Bool) : List Char → Bool
  | [] => matchUnit L []
  | c :: rest => if c = ' ' then matchUnit L rest else matchUnit L (c :: rest)

/-- The optional fraction `(\.\d+)?` of the regular expression, followed by
the rest. -/
def matchFrac (L : Char → Bool) : List Char → Bool
  | [] => matchOptSpace L []
  | c :: rest =>
    if c = '.' then
      if (spanDigits rest).1.isEmpty then false else matchOptSpace L (spanDigits rest).2
    else matchOptSpace L (c :: rest)

/-- Full-anchored matcher for `^\d+(\.\d+)? ?(L{1,5})?$` with letter class
`L`.  Every character class of the expression is disjoint from whatever may
legally follow it, so this greedy non-backtracking parse decides exactly the
regex. -/
def reNumTypeGen (L : Char → Bool) (cs : List Char) : Bool :=
  if (spanDigits cs).1.isEmpty then false else matchFrac L (spanDigits cs).2

/-- Matcher for the regular expression `(?i)^\d+(\.\d+)? ?([a-z]{1,5})?$`
(`reNumType` in `humanlog.go`), with RE2's case-folded letter class. -/
def reNumType (cs : List Char) : Bool :=
  reNumTypeGen isUnitLetter cs

/-- Continuation-byte test `0x80..0xBF` of UTF-8. -/
def contB (b : Nat) : Bool :=
  0x80 ≤ b && b ≤ 0xBF

/-- Admissible first continuation byte of a three-byte UTF-8 sequence with
lead `b` (Go is strict: no overlong encodings, no surrogates). -/
def cont3ok (b c1 : Nat) : Bool :=
  if b = 0xE0 then 0xA0 ≤ c1 && c1 ≤ 0xBF
  else if b = 0xED then 0x80 ≤ c1 && c1 ≤ 0x9F
  else contB c1

/-- Admissible first continuation byte of a four-byte UTF-8 sequence with
lead `b` (no overlong encodings, nothing above U+10FFFF). -/
def cont4ok (b c1 : Nat) : Bool :=
  if b = 0xF0 then 0x90 ≤ c1 && c1 ≤ 0xBF
  else if b = 0xF4 then 0x80 ≤ c1 && c1 ≤ 0x8F
  else contB c1

/-- Number of continuation bytes a well-formed sequence with lead byte `b`
carries; `none` when `b` cannot begin a well-formed sequence (continuation
bytes, the overlong leads `0xC0`/`0xC1`, and everything above `0xF4`). -/
def utf8Cont (b : Nat) : Option Nat :=
  if b < 0x80 then some 0
  else if 0xC2 ≤ b ∧ b ≤ 0xDF then some 1
  else if 0xE0 ≤ b ∧ b ≤ 0xEF then some 2
  else if 0xF0 ≤ b ∧ b ≤ 0xF4 then some 3
  else none

/-- Well-formedness of the continuation bytes for lead `b`: the first one is
range-restricted (excluding overlong encodings, surrogates and code points
above U+10FFFF), the rest must be generic continuations `0x80..0xBF`. -/
def utf8ContOk (b : Nat) : List Nat → Bool
  | [] => true
  | c1 :: cs2 =>
    (if 0xE0 ≤ b ∧ b ≤ 0xEF then cont3ok b c1
     else if 0xF0 ≤ b ∧ b ≤ 0xF4 then cont4ok b c1
     else contB c1) && cs2.all contB

/-- Payload bits of a lead byte. -/
def utf8Lead (b : Nat) : Nat :=
  if b < 0x80 then b
  else if b ≤ 0xDF then b - 0xC0
  else if b ≤ 0xEF then b - 0xE0
  else b - 0xF0

/-- UTF-8 decoding of a byte list as Go's `unicode/utf8.DecodeRune` performs
it when the regexp engine walks a `[]byte` input: a well-formed sequence
yields its code point, any ill-formed or truncated sequence yields U+FFFD
with exactly one byte consumed. -/
def utf8Decode : List Nat → List Char
  | [] => []
  | b :: rest =>
    match utf8Cont b with
    | none => Char.ofNat 0xFFFD :: utf8Decode rest
    | some n =>
      if (rest.take n).length = n ∧ utf8ContOk b (rest.take n) then
        Char.ofNat ((rest.take n).foldl (fun acc c => acc * 64 + (c - 0x80)) (utf8Lead b))
          :: utf8Decode (rest.drop n)
      else Char.ofNat 0xFFFD :: utf8Decode rest
termination_by l => l.length
decreasing_by
  all_goals simp [List.length_drop, List.length_cons]
  omega

/-- Closed sum of the dynamic value kinds distinguished by the type switch of
`isTypeRightAlignable` in `humanlog.go`.  Variants whose `%v` rendering is
produced by the Go runtime outside this repository (floats, complex numbers,
duration pointers, arbitrary other types) carry their rendered text. -/
inductive Value where
  | uintV (v : Nat)
  | intV (v : Int)
  | floatV (render : String)
  | complexV (render : String)
  | durationV (ns : Int)
  | durationPtrV (render : String)
  | strV (s : String)
  | bytesV (b : List Nat)
  | otherV (render : String)
deriving DecidableEq

/-- Model of `isTypeRightAlignable` in `humanlog.go`: every numeric kind
(unsigned/signed integers, floats, complex, durations and duration pointers)
is right-alignable, strings and byte slices are matched against `reNumType`,
anything else is not right-alignable. -/
def isTypeRightAlignable : Value → Bool
  | .uintV _ => true
  | .intV _ => true
  | .floatV _ => true
  | .complexV _ => true
  | .durationV _ => true
  | .durationPtrV _ => true
  | .strV s => reNumType s.toList
  | .bytesV b => reNumType (utf8Decode b)
  | .otherV _ => false

/-- Decomposition into one or more digits, an optional dot followed by one or
more digits, an optional single space, and an optional suffix of at most five
letters of the class `L`. -/
def specNumPatternGen (L : Char → Bool) (cs : List Char) : Prop :=
  ∃ d f sp u : List Char,
    cs = d ++ f ++ sp ++ u ∧
    d ≠ [] ∧ (∀ c ∈ d, c.isDigit = true) ∧
    (f = [] ∨ ∃ e, e ≠ [] ∧ (∀ c ∈ e, c.isDigit = true) ∧ f = '.' :: e) ∧
    (sp = [] ∨ sp = [' ']) ∧
    (∀ c ∈ u, L c = true) ∧ u.length ≤ 5

/-- Modelled from the spec's words (claim C5 as frozen): the unit suffix is
made of 1-5 letters `[A-Za-z]` (the spec writes the pattern
`^\d+(\.\d+)? ?[A-Za-z]{0,5}$`). -/
def specNumPattern (cs : List Char) : Prop :=
  specNumPatternGen Char.isAlpha cs

/-- The amended pattern: the unit letters are RE2's case-folded class
`isUnitLetter` (ASCII letters plus U+017F and U+212A). -/
def specNumPatternFolded (cs : List Char) : Prop :=
  specNumPatternGen isUnitLetter cs

/-- The amended classification (claim C5): numeric kinds are RIGHT, a string
is RIGHT exactly when it matches the case-folded pattern, a byte sequence is
RIGHT exactly when its UTF-8 decoding matches it, everything else is LEFT. -/
def classifiesRightFolded : Value → Prop
  | .uintV _ => True
  | .intV _ => True
  | .floatV _ => True
  | .complexV _ => True
  | .durationV _ => True
  | .durationPtrV _ => True
  | .strV s => specNumPatternFolded s.toList
  | .bytesV b => specNumPatternFolded (utf8Decode b)
  | .otherV _ => False

/-- The string "1K": the digit one followed by the Kelvin sign. -/
def kelvinSample : String :=
  String.mk ['1', Char.ofNat 0x212A]

/-- Go's `%v` rendering of the embedded values: integers render in decimal,
byte slices render as bracketed decimal lists, strings render as themselves,
and the variants whose rendering comes from the Go runtime carry their text.
`writeNameValue` replaces a raw duration with `Duration(...)` before any `%v`
formatting, so the `durationV` case mirrors that substitution. -/
def fmtV : Value → String
  | .uintV v => toString v
  | .intV v => toString v
  | .floatV r => r
  | .complexV r => r
  | .durationV ns => DurationGo ns
  | .durationPtrV r => r
  | .strV s => s
  | .bytesV b => "[" ++ String.intercalate " " (b.map toString) ++ "]"
  | .otherV r => r

/-- The duration special case at the top of `Handler.writeNameValue`:
`if dur, ok := val.(time.Duration); ok { val = Duration(dur) }`. -/
def resolveVal : Value → Value
  | .durationV ns => .strV (DurationGo ns)
  | v => v

/-- Left padding applied by the `%*v` width verb of `fmt` (never truncates). -/
def padLeftTo (w : Nat) (s : String) : String :=
  if s.length < w then String.mk (List.replicate (w - s.length) ' ') ++ s else s

/-- One write into the handler's line buffer `h.buf`. -/
inductive Segment where
  | header (c : Color) (text : String)
  | message (text : String)
  | field (keyColor : Color) (name : String) (text : String)
  | newline
deriving DecidableEq

/-- The field name of a buffer segment, when the segment is a field write. -/
def segFieldName : Segment → Option String
  | .field _ n _ => some n
  | _ => none

/-- The comparison closure passed to `sort.Slice` by `Handler.sortNames`:
right-alignable fields sort before left-alignable ones, ties break by
`strings.Compare(names[a], names[b]) == -1` (lexicographic `<`). -/
def fieldLess (f : String → Value) (a b : String) : Bool :=
  let ar := isTypeRightAlignable (f a)
  let br := isTypeRightAlignable (f b)
  if ar ≠ br then ar else decide (a < b)

/-- Model of `Handler.sortNames`: `sort.Slice` with the strict order
`fieldLess` sorts the names by the companion total non-strict order
`fun a b => fieldLess f b a = false`. -/
def sortNames (f : String → Value) (names : List String) : List String :=
  names.insertionSort (fun a b => fieldLess f b a = false)

/-- A log record as consumed by `HandleLog`.  The timestamp is carried as its
already-formatted text (Go's `time.Format` is stdlib, outside this repo);
field values are looked up by name as with `e.Fields.Get`. -/
structure Entry where
  timestamp : String
  level : Level
  message : String
  fieldNames : List String
  fieldsGet : String → Value

/-- Model of `Handler.writeNameValue`.  `width` is the display-width function
of the external `go-runewidth` library (`runewidth.StringWidth`), passed in as
a parameter; `lengths` is the per-name stats map `h.lengths` (total with the
Go map's zero value).  Returns the updated map and the buffer write. -/
def writeNameValue (width : String → Nat) (f : String → Value)
    (lengths : String → keyStat) (name : String) (i total : Nat) :
    (String → keyStat) × Segment :=
  let val := resolveVal (f name)
  let sv := fmtV val
  let sw := width sv
  let kstat := observeStat (lengths name) sw (isTypeRightAlignable val)
  let isRight := alignDecision kstat
  let lengths2 := fun n => if n = name then kstat else lengths n
  if isRight then
    (lengths2, .field (getKeyColor name) name (padLeftTo kstat.MaxLength sv))
  else
    let pad := if sw < kstat.MaxLength ∧ i + 1 ≠ total then
        String.mk (List.replicate (kstat.MaxLength - sw) ' ')
      else ""
    (lengths2, .field (getKeyColor name) name (sv ++ pad))

/-- The field loop of `HandleLog`: iterate the sorted names with their
indices, skipping the name `"source"`. -/
def renderFields (width : String → Nat) (f : String → Value) (total : Nat) :
    (String → keyStat) → List (Nat × String) → (String → keyStat) × List Segment
  | st, [] => (st, [])
  | st, (i, name) :: rest =>
    if name = "source" then renderFields width f total st rest
    else
      let p := writeNameValue width f st name i total
      let q := renderFields width f total p.1 rest
      (q.1, p.2 :: q.2)

/-- The line assembly of `HandleLog`: colored timestamp-plus-symbol header,
the message when non-empty, each field, then the terminating newline of
`fmt.Fprintln`; returns the buffer content and the updated stats map. -/
def renderLine (width : String → Nat) (st : String → keyStat) (e : Entry) :
    List Segment × (String → keyStat) :=
  let names := sortNames e.fieldsGet e.fieldNames
  let head := Segment.header (LevelColors e.level) (e.timestamp ++ " " ++ LevelSymbol e.level)
  let msgs := if e.message = "" then [head] else [head, .message e.message]
  let p := renderFields width e.fieldsGet names.length st names.enum
  (msgs ++ p.2 ++ [.newline], p.1)

/-- Model of `Handler.HandleLog`: all writes go to the internal
`bytes.Buffer`, whose writes never fail, and the buffered line is then flushed
with `h.buf.WriteTo(h.Writer)`; the sink's verdict (`none` = accepted,
`some err` = write failure) is returned to the caller unchanged. -/
def handleLog (width : String → Nat) (sink : List Segment → Option String)
    (st : String → keyStat) (e : Entry) : Option String × (String → keyStat) :=
  let p := renderLine width st e
  (sink p.1, p.2)

/-- Concrete sample record used to instantiate universally quantified
theorems at a concrete input. -/
def sampleEntry : Entry :=
  { timestamp := "15:04:05.000"
    level := .info
    message := "starting"
    fieldNames := ["count", "name", "source"]
    fieldsGet := fun n =>
      if n = "count" then .uintV 42
      else if n = "source" then .strV "hidden"
      else .strV "worker-1" }

/-- Sample display-width function (plain character count). -/
def sampleWidth (s : String) : Nat := s.length

/-- Sample sink that rejects every write with error text `"boom"`. -/
def failSink (_l : List Segment) : Option String := some "boom"

end Humanlog

namespace Humanlog

theorem foldl_observe_counts (obs : List (Nat × Bool)) (k : keyStat) :
    (obs.foldl (fun k p => observeStat k p.1 p.2) k).Count = k.Count + obs.length ∧
    (obs.foldl (fun k p => observeStat k p.1 p.2) k).RightAlignable
      = k.RightAlignable + obs.countP (fun p => p.2) := by
  induction obs generalizing k with
  | nil => simp
  | cons hd tl ih =>
    obtain ⟨h1, h2⟩ := ih (observeStat k hd.1 hd.2)
    refine ⟨?_, ?_⟩
    · rw [List.foldl_cons, h1]
      simp only [observeStat, List.length_cons]
      omega
    · rw [List.foldl_cons, h2]
      simp only [observeStat, List.countP_cons]
      cases h : hd.2 <;> simp [h] <;> omega

/-- Claim C1 (code bug): the spec says `Duration(90_000_000_000)` (90 seconds)
is a minute/second decomposition such as `"1m30s"`, but the decomposition loop
initializes `last = -1`, so the first matched unit passes the contiguity check
`i-1 != last` only at index 0 (year); for any duration of at least one minute
but below one year the loop breaks before emitting anything and `Duration`
returns the empty string. -/
theorem C1_duration_90s_empty : DurationGo 90000000000 = "" := by decide

/-- Claim C2: the key color of the field named `"error"` is the same entry of
the severity-to-color table that is used for the ERROR severity level. -/
theorem C2_error_key_color : getKeyColor "error" = LevelColors Level.error := by
  decide

/-- Claim C3: for every sequence of observations of one field name, the
rendered alignment is RIGHT exactly when the accumulated right votes strictly
exceed `sampleCount / 2`; in particular 3 right votes out of 5 samples give
RIGHT, 2 out of 5 give LEFT, and 3 out of 6 give LEFT. -/
theorem C3_alignment_majority :
    (∀ obs : List (Nat × Bool),
      alignDecision (foldObs obs)
        = decide (obs.length / 2 < obs.countP (fun p => p.2))) ∧
    alignDecision (foldObs [(1, true), (1, true), (1, true), (1, false), (1, false)]) = true ∧
    alignDecision (foldObs [(1, true), (1, false), (1, true), (1, false), (1, false)]) = false ∧
    alignDecision (foldObs [(1, true), (1, true), (1, true), (1, false), (1, false), (1, false)])
      = false := by
  refine ⟨fun obs => ?_, by decide, by decide, by decide⟩
  obtain ⟨h1, h2⟩ := foldl_observe_counts obs keyStat.zero
  unfold foldObs alignDecision
  rw [h1, h2]
  simp [keyStat.zero]

/-- Claim C4: each observation first sets `maxWidth` to
`max(maxWidth, displayWidth)` and then, if `displayWidth + 20 < maxWidth`,
resets `maxWidth` to `displayWidth`; widths `[3, 3, 3, 30]` yield
`maxWidth = 30`, and widths `[30, 5]` trigger decay down to `5`. -/
theorem C4_width_decay :
    (∀ (k : keyStat) (sw : Nat) (b : Bool),
      (observeStat k sw b).MaxLength
        = if sw + 20 < max k.MaxLength sw then sw else max k.MaxLength sw) ∧
    (foldObs [(3, false), (3, false), (3, false), (30, false)]).MaxLength = 30 ∧
    (foldObs [(30, false), (5, false)]).MaxLength = 5 := by
  refine ⟨fun k sw b => rfl, by decide, by decide⟩

/-- Claim C9: for every non-negative duration strictly below one microsecond,
`Duration` renders the exact integer nanosecond count followed by `"ns"`. -/
theorem C9_nanoseconds (d : Int) (h0 : 0 ≤ d) (h : d < 1000) :
    DurationGo d = toString d ++ "ns" := by
  unfold DurationGo
  rw [if_pos h]

/-- Witness for C9 at the concrete inputs of the claim:
`Duration(500) = "500ns"` and `Duration(0) = "0ns"`. -/
theorem C9_nanoseconds_witness :
    DurationGo 500 = "500ns" ∧ DurationGo 0 = "0ns" := by
  constructor
  · exact (C9_nanoseconds 500 (by decide) (by decide)).trans (by decide)
  · exact (C9_nanoseconds 0 (by decide) (by decide)).trans (by decide)

/-- Claim C10 (implicit invariant): after every observation of a field, the
column width kept in the field's stat (and used to pad its value) is at least
the display width of the current value, so no value is padded to a column
narrower than itself. -/
theorem C10_column_at_least_value :
    ∀ (k : keyStat) (sw : Nat) (b : Bool), sw ≤ (observeStat k sw b).MaxLength := by
  intro k sw b
  simp only [observeStat]
  split
  · exact Nat.le_refl sw
  · exact Nat.le_max_right k.MaxLength sw

theorem alpha_not_digit {c : Char} (h : c.isAlpha = true) : c.isDigit = false := by
  simp only [Char.isAlpha, Char.isUpper, Char.isLower, Char.isDigit, Bool.or_eq_true,
    Bool.and_eq_true, decide_eq_true_eq] at h ⊢
  rw [Bool.and_eq_false_iff]
  right
  rw [decide_eq_false_iff_not]
  intro hc
  have hdig : c.val.toNat ≤ 57 := hc
  rcases h with ⟨h1, _⟩ | ⟨h1, _⟩
  · have h65 : 65 ≤ c.val.toNat := h1
    omega
  · have h97 : 97 ≤ c.val.toNat := h1
    omega

theorem spanDigits_append : ∀ cs : List Char, (spanDigits cs).1 ++ (spanDigits cs).2 = cs
  | [] => rfl
  | c :: cs => by
    by_cases hd : c.isDigit = true
    · simp only [spanDigits, if_pos hd, List.cons_append]
      rw [spanDigits_append cs]
    · simp [spanDigits, hd]

theorem spanDigits_digits : ∀ cs : List Char, ∀ c ∈ (spanDigits cs).1, c.isDigit = true
  | [] => by simp [spanDigits]
  | c :: cs => by
    by_cases hd : c.isDigit = true
    · simp only [spanDigits, if_pos hd]
      intro x hx
      rcases List.mem_cons.mp hx with h | h
      · subst h; exact hd
      · exact spanDigits_digits cs x h
    · simp [spanDigits, hd]

theorem spanDigits_rest (cs : List Char) :
    ∀ {c : Char} {r : List Char}, (spanDigits cs).2 = c :: r → c.isDigit = false := by
  induction cs with
  | nil => intro c r h; simp [spanDigits] at h
  | cons a cs ih =>
    intro c r h
    by_cases hd : a.isDigit = true
    · simp only [spanDigits, if_pos hd] at h
      exact ih h
    · simp only [spanDigits, if_neg hd] at h
      obtain ⟨h1, _⟩ := List.cons.inj h
      subst h1
      simpa using hd

theorem spanDigits_of (d rest : List Char) (hd : ∀ c ∈ d, c.isDigit = true)
    (hr : ∀ c r, rest = c :: r → c.isDigit = false) :
    spanDigits (d ++ rest) = (d, rest) := by
  induction d with
  | nil =>
    simp only [List.nil_append]
    cases rest with
    | nil => rfl
    | cons c r =>
      have hc := hr c r rfl
      simp [spanDigits, hc]
  | cons a d ih =>
    have ha : a.isDigit = true := hd a (List.mem_cons_self a d)
    have ih2 := ih (fun c hc => hd c (List.mem_cons_of_mem a hc))
    simp [List.cons_append, spanDigits, if_pos ha, ih2]

theorem unitLetter_not_digit {c : Char} (h : isUnitLetter c = true) : c.isDigit = false := by
  simp only [isUnitLetter, Bool.or_eq_true, decide_eq_true_eq] at h
  rcases h with (h | h) | h
  · exact alpha_not_digit h
  · subst h; decide
  · subst h; decide

theorem matchUnit_eq_true (L : Char → Bool) {u : List Char} :
    matchUnit L u = true ↔ (∀ c ∈ u, L c = true) ∧ u.length ≤ 5 := by
  simp [matchUnit, List.all_eq_true]

theorem matchOptSpace_imp (L : Char → Bool) {t : List Char} (h : matchOptSpace L t = true) :
    ∃ sp u, t = sp ++ u ∧ (sp = [] ∨ sp = [' ']) ∧
      (∀ c ∈ u, L c = true) ∧ u.length ≤ 5 := by
  cases t with
  | nil => exact ⟨[], [], rfl, Or.inl rfl, by simp, by simp⟩
  | cons c rest =>
    by_cases hc : c = ' '
    · subst hc
      simp only [matchOptSpace, if_pos rfl] at h
      obtain ⟨h1, h2⟩ := (matchUnit_eq_true L).mp h
      exact ⟨[' '], rest, rfl, Or.inr rfl, h1, h2⟩
    · simp only [matchOptSpace, if_neg hc] at h
      obtain ⟨h1, h2⟩ := (matchUnit_eq_true L).mp h
      exact ⟨[], c :: rest, rfl, Or.inl rfl, h1, h2⟩

theorem matchFrac_imp (L : Char → Bool) {r : List Char} (h : matchFrac L r = true) :
    ∃ f t, r = f ++ t ∧
      (f = [] ∨ ∃ e, e ≠ [] ∧ (∀ c ∈ e, c.isDigit = true) ∧ f = '.' :: e) ∧
      matchOptSpace L t = true := by
  cases r with
  | nil => exact ⟨[], [], rfl, Or.inl rfl, by simpa [matchFrac] using h⟩
  | cons c rest =>
    by_cases hc : c = '.'
    · subst hc
      simp only [matchFrac, if_pos rfl] at h
      by_cases he : (spanDigits rest).1.isEmpty = true
      · rw [if_pos he] at h
        exact absurd h (by simp)
      · rw [if_neg he] at h
        refine ⟨'.' :: (spanDigits rest).1, (spanDigits rest).2, ?_, ?_, h⟩
        · simp [spanDigits_append rest]
        · exact Or.inr ⟨(spanDigits rest).1, by simpa [List.isEmpty_iff] using he,
            spanDigits_digits rest, rfl⟩
    · simp only [matchFrac, if_neg hc] at h
      exact ⟨[], c :: rest, rfl, Or.inl rfl, h⟩

theorem reNumTypeGen_imp (L : Char → Bool) {cs : List Char}
    (h : reNumTypeGen L cs = true) : specNumPatternGen L cs := by
  unfold reNumTypeGen at h
  by_cases he : (spanDigits cs).1.isEmpty = true
  · rw [if_pos he] at h
    exact absurd h (by simp)
  · rw [if_neg he] at h
    obtain ⟨f, t, ht, hf, hsp⟩ := matchFrac_imp L h
    obtain ⟨sp, u, hu, hsp2, hal, hlen⟩ := matchOptSpace_imp L hsp
    refine ⟨(spanDigits cs).1, f, sp, u, ?_, ?_, spanDigits_digits cs, hf, hsp2, hal, hlen⟩
    · conv_lhs => rw [← spanDigits_append cs]
      rw [ht, hu]
      simp [List.append_assoc]
    · simpa [List.isEmpty_iff] using he

theorem headNotDigit_of (L : Char → Bool)
    (hLd : ∀ c : Char, L c = true → c.isDigit = false) (f sp u : List Char)
    (hf : f = [] ∨ ∃ e, e ≠ [] ∧ (∀ c ∈ e, c.isDigit = true) ∧ f = '.' :: e)
    (hsp : sp = [] ∨ sp = [' '])
    (hu : ∀ c ∈ u, L c = true) :
    ∀ c r, f ++ sp ++ u = c :: r → c.isDigit = false := by
  intro c r h
  rcases hf with hf | ⟨e, _, _, hfe⟩
  · subst hf
    rcases hsp with hsp | hsp
    · subst hsp
      simp only [List.nil_append] at h
      have hcm : c ∈ u := h ▸ List.mem_cons_self c r
      exact hLd c (hu c hcm)
    · subst hsp
      simp only [List.nil_append, List.cons_append, List.nil_append] at h
      obtain ⟨h1, _⟩ := List.cons.inj h
      subst h1
      decide
  · subst hfe
    simp only [List.cons_append] at h
    obtain ⟨h1, _⟩ := List.cons.inj h
    subst h1
    decide

theorem matchOptSpace_of (L : Char → Bool) (hLsp : L ' ' = false) (sp u : List Char)
    (hsp : sp = [] ∨ sp = [' '])
    (hal : ∀ c ∈ u, L c = true) (hlen : u.length ≤ 5) :
    matchOptSpace L (sp ++ u) = true := by
  have hmu : matchUnit L u = true := (matchUnit_eq_true L).mpr ⟨hal, hlen⟩
  rcases hsp with hsp | hsp
  · subst hsp
    simp only [List.nil_append]
    cases u with
    | nil => simpa [matchOptSpace] using hmu
    | cons c r =>
      have hc : c ≠ ' ' := by
        intro hcc
        subst hcc
        have := hal ' ' (List.mem_cons_self ' ' r)
        rw [hLsp] at this
        exact Bool.noConfusion this
      simpa [matchOptSpace, hc] using hmu
  · subst hsp
    simpa [matchOptSpace] using hmu

theorem matchFrac_of (L : Char → Bool)
    (hLd : ∀ c : Char, L c = true → c.isDigit = false)
    (hLsp : L ' ' = false) (hLdot : L '.' = false) (f sp u : List Char)
    (hf : f = [] ∨ ∃ e, e ≠ [] ∧ (∀ c ∈ e, c.isDigit = true) ∧ f = '.' :: e)
    (hsp : sp = [] ∨ sp = [' '])
    (hal : ∀ c ∈ u, L c = true) (hlen : u.length ≤ 5) :
    matchFrac L (f ++ sp ++ u) = true := by
  have hos : matchOptSpace L (sp ++ u) = true := matchOptSpace_of L hLsp sp u hsp hal hlen
  rcases hf with hf | ⟨e, he, hed, hfe⟩
  · subst hf
    simp only [List.nil_append]
    rcases hsp with hsp | hsp
    · subst hsp
      simp only [List.nil_append] at hos ⊢
      cases u with
      | nil => simpa [matchFrac] using hos
      | cons c r =>
        have hc : c ≠ '.' := by
          intro hcc
          subst hcc
          have := hal '.' (List.mem_cons_self '.' r)
          rw [hLdot] at this
          exact Bool.noConfusion this
        simpa [matchFrac, hc] using hos
    · subst hsp
      simpa [matchFrac] using hos
  · subst hfe
    simp only [List.cons_append, List.append_assoc]
    have hspan2 : spanDigits (e ++ (sp ++ u)) = (e, sp ++ u) :=
      spanDigits_of e (sp ++ u) hed (headNotDigit_of L hLd [] sp u (Or.inl rfl) hsp hal)
    simp [matchFrac, hspan2, List.isEmpty_iff, he, hos]

theorem spec_imp_reNumTypeGen (L : Char → Bool)
    (hLd : ∀ c : Char, L c = true → c.isDigit = false)
    (hLsp : L ' ' = false) (hLdot : L '.' = false) {cs : List Char}
    (h : specNumPatternGen L cs) : reNumTypeGen L cs = true := by
  obtain ⟨d, f, sp, u, hcs, hdne, hdig, hf, hsp, hal, hlen⟩ := h
  have hrest : ∀ c r, f ++ sp ++ u = c :: r → c.isDigit = false :=
    headNotDigit_of L hLd f sp u hf hsp hal
  have hspan : spanDigits cs = (d, f ++ sp ++ u) := by
    rw [hcs, show d ++ f ++ sp ++ u = d ++ (f ++ sp ++ u) by simp [List.append_assoc]]
    exact spanDigits_of d (f ++ sp ++ u) hdig hrest
  unfold reNumTypeGen
  rw [hspan]
  simp only []
  rw [if_neg (by simpa [List.isEmpty_iff] using hdne)]
  exact matchFrac_of L hLd hLsp hLdot f sp u hf hsp hal hlen

theorem reNumTypeGen_iff (L : Char → Bool)
    (hLd : ∀ c : Char, L c = true → c.isDigit = false)
    (hLsp : L ' ' = false) (hLdot : L '.' = false) (cs : List Char) :
    reNumTypeGen L cs = true ↔ specNumPatternGen L cs :=
  ⟨reNumTypeGen_imp L, spec_imp_reNumTypeGen L hLd hLsp hLdot⟩

theorem reNumType_iff_folded (cs : List Char) :
    reNumType cs = true ↔ specNumPatternFolded cs :=
  reNumTypeGen_iff isUnitLetter (fun _ h => unitLetter_not_digit h) (by decide) (by decide) cs

theorem reNumTypeAscii_iff (cs : List Char) :
    reNumTypeGen Char.isAlpha cs = true ↔ specNumPattern cs :=
  reNumTypeGen_iff Char.isAlpha (fun _ h => alpha_not_digit h) (by decide) (by decide) cs

/-- Claim C5 as frozen is false of the program: `(?i)` makes RE2 case-fold
the class `[a-z]`, which then also contains U+212A (KELVIN SIGN); the string
consisting of the digit one followed by the Kelvin sign classifies RIGHT
although it does not match the spec's ASCII-letter pattern. -/
theorem C5_classifier_counterexample :
    isTypeRightAlignable (.strV kelvinSample) = true
      ∧ ¬ specNumPattern kelvinSample.toList := by
  refine ⟨by decide, fun h => ?_⟩
  have := (reNumTypeAscii_iff kelvinSample.toList).mpr h
  exact absurd this (by decide)

/-- Claim C5 (amended): the alignment classifier is a total function: every
numeric kind classifies RIGHT; a string (or the UTF-8 decoding of a byte
sequence) classifies RIGHT exactly when it matches the digits / optional dot
plus digits / optional single space / optional 1-5 letter unit pattern, the
letters being RE2's case-folded class, i.e. the ASCII letters plus U+017F and
U+212A; every other value classifies LEFT.  In particular `"10"` and
`"3.5 ms"` are RIGHT and `"abc"` and `"-"` are LEFT. -/
theorem C5_classifier_total :
    (∀ v : Value, isTypeRightAlignable v = true ↔ classifiesRightFolded v) ∧
    isTypeRightAlignable (.strV "10") = true ∧
    isTypeRightAlignable (.strV "3.5 ms") = true ∧
    isTypeRightAlignable (.strV "abc") = false ∧
    isTypeRightAlignable (.strV "-") = false := by
  refine ⟨fun v => ?_, by decide, by decide, by decide, by decide⟩
  cases v <;> simp [isTypeRightAlignable, classifiesRightFolded, reNumType_iff_folded]

theorem segFieldName_writeNameValue (width : String → Nat) (f : String → Value)
    (st : String → keyStat) (name : String) (i total : Nat) :
    segFieldName (writeNameValue width f st name i total).2 = some name := by
  simp only [writeNameValue]
  split <;> rfl

theorem renderFields_names (width : String → Nat) (f : String → Value) (total : Nat) :
    ∀ (l : List (Nat × String)) (st : String → keyStat),
      (renderFields width f total st l).2.filterMap segFieldName
        = (l.map Prod.snd).filter (fun n => n ≠ "source") := by
  intro l
  induction l with
  | nil => intro st; rfl
  | cons hd rest ih =>
    intro st
    obtain ⟨i, name⟩ := hd
    by_cases hs : name = "source"
    · subst hs
      simp [renderFields, ih]
    · simp [renderFields, hs, List.filterMap_cons, segFieldName_writeNameValue, ih]

theorem renderLine_names (width : String → Nat) (st : String → keyStat) (e : Entry) :
    (renderLine width st e).1.filterMap segFieldName
      = (sortNames e.fieldsGet e.fieldNames).filter (fun n => n ≠ "source") := by
  simp only [renderLine, List.filterMap_append]
  rw [renderFields_names]
  rw [List.enum_map_snd]
  split <;> simp [segFieldName]

/-- Claim C7: a field literally named `"source"` is never rendered: no
key=value segment for `"source"` appears in the output line, whatever its
value, the record, or the accumulated state. -/
theorem C7_source_excluded (width : String → Nat) (st : String → keyStat) (e : Entry)
    (c : Color) (v : String) :
    Segment.field c "source" v ∉ (renderLine width st e).1 := by
  intro hmem
  have hsrc : "source" ∈ (renderLine width st e).1.filterMap segFieldName :=
    List.mem_filterMap.mpr ⟨Segment.field c "source" v, hmem, rfl⟩
  rw [renderLine_names] at hsrc
  have := (List.mem_filter.mp hsrc).2
  simp at this

/-- Witness for C7 at a concrete record that carries a `"source"` field. -/
theorem C7_source_excluded_witness :
    Segment.field (Color.ansi [31]) "source" "hidden"
      ∉ (renderLine sampleWidth (fun _ => keyStat.zero) sampleEntry).1 :=
  C7_source_excluded sampleWidth (fun _ => keyStat.zero) sampleEntry (Color.ansi [31]) "hidden"

/-- Claim C8: `HandleLog` fails exactly when the write to the output sink
fails: the internal buffer writes cannot fail, the result is success iff the
sink accepted the flushed line, and a sink failure is surfaced to the caller
unchanged, immediately and without retry. -/
theorem C8_error_is_sink_error (width : String → Nat)
    (sink : List Segment → Option String) (st : String → keyStat) (e : Entry) :
    ((handleLog width sink st e).1 = none ↔ sink (renderLine width st e).1 = none) ∧
    (∀ err : String, sink (renderLine width st e).1 = some err →
      (handleLog width sink st e).1 = some err) := by
  exact ⟨Iff.rfl, fun _ h => h⟩

/-- Witness for C8: with a sink that rejects the write with `"boom"`,
`HandleLog` returns exactly that failure. -/
theorem C8_error_is_sink_error_witness :
    (handleLog sampleWidth failSink (fun _ => keyStat.zero) sampleEntry).1 = some "boom" :=
  (C8_error_is_sink_error sampleWidth failSink (fun _ => keyStat.zero) sampleEntry).2 "boom" rfl

theorem fieldLess_total (f : String → Value) (a b : String) :
    fieldLess f b a = false ∨ fieldLess f a b = false := by
  cases har : isTypeRightAlignable (f a) <;> cases hbr : isTypeRightAlignable (f b) <;>
    simp [fieldLess, har, hbr]
  · exact le_total _ _
  · exact le_total _ _

theorem fieldLess_trans (f : String → Value) (a b c : String)
    (h1 : fieldLess f b a = false) (h2 : fieldLess f c b = false) :
    fieldLess f c a = false := by
  cases har : isTypeRightAlignable (f a) <;> cases hbr : isTypeRightAlignable (f b) <;>
    cases hcr : isTypeRightAlignable (f c) <;>
    simp_all [fieldLess]
  · exact le_trans h1 h2
  · exact le_trans h1 h2

theorem fieldLe_iff (f : String → Value) (a b : String) :
    fieldLess f b a = false ↔
      (isTypeRightAlignable (f a) = true ∧ isTypeRightAlignable (f b) = false) ∨
      (isTypeRightAlignable (f a) = isTypeRightAlignable (f b) ∧ a ≤ b) := by
  cases har : isTypeRightAlignable (f a) <;> cases hbr : isTypeRightAlignable (f b) <;>
    simp [fieldLess, har, hbr, not_lt]

/-- Claim C6: in the rendered field order, every right-aligning field comes
before every left-aligning field, and within one alignment group the names
appear in lexicographically ascending order. -/
theorem C6_field_order (width : String → Nat) (st : String → keyStat) (e : Entry) :
    ((renderLine width st e).1.filterMap segFieldName).Pairwise (fun a b =>
      (isTypeRightAlignable (e.fieldsGet a) = true
          ∧ isTypeRightAlignable (e.fieldsGet b) = false)
      ∨ (isTypeRightAlignable (e.fieldsGet a) = isTypeRightAlignable (e.fieldsGet b)
          ∧ a ≤ b)) := by
  rw [renderLine_names]
  refine List.Pairwise.filter _ ?_
  letI : IsTotal String (fun a b => fieldLess e.fieldsGet b a = false) :=
    ⟨fun a b => fieldLess_total e.fieldsGet a b⟩
  letI : IsTrans String (fun a b => fieldLess e.fieldsGet b a = false) :=
    ⟨fun a b c h1 h2 => fieldLess_trans e.fieldsGet a b c h1 h2⟩
  have hsorted := List.sorted_insertionSort
    (fun a b => fieldLess e.fieldsGet b a = false) e.fieldNames
  exact hsorted.imp (fun hab => (fieldLe_iff e.fieldsGet _ _).mp hab)

end Humanlog
